import Mathlib

/-!
Verification of the gh-recon discovery-and-extraction pipeline.

The definitions below are a shallow embedding of `main.go`:

* the URL normalizer `_ExtractUrl` (regex
  `^https?://(\w+\.)+[a-z]\x7b2,5\x7d(/[^"'\s><\\\x7b\x7d]+)*`, Go RE2
  leftmost-first semantics, line 115-118);
* the data model (`User`, `Repository`, `Organization`, `TargetFile`);
* the HTTP-facing operations (`_GetRepositories`, `GetOrganization`,
  `GetMembers`), modelled over an abstract `World` of HTTP replies, each
  reply carrying the transport error flag, the status code, and the result
  of decoding the body into the target type;
* the repository set builder inside `FullRecon` (lines 175-186);
* the tree flattener `ParseRepository` (lines 79-106), with Go slice
  semantics (a write past the end of the slice is a runtime panic,
  modelled as `none`);
* the per-invocation resource wiring of `FullRecon`/`ParseRepository`
  (one `memfs.New()` before the dispatch loop, one `memory.NewStorage()`
  per `ParseRepository` call), with allocation identifiers standing for
  object identity;
* the concurrent dispatch loop of `FullRecon` (lines 192-209) as a
  small-step interleaving semantics: the Go loop variable `repo` is a
  single shared slot (pre-1.22 `for range` semantics), `input <- &repo`
  hands every task a pointer to that slot, and a task dereferences the
  slot only when it is scheduled to run.
-/

namespace GhRecon

/-! ### Character classes of the normalizer regex (Go RE2, ASCII) -/

/-- RE2 `\w`, i.e. `[0-9A-Za-z_]`. -/
def isWordChar (c : Char) : Bool :=
  let n := c.toNat
  (48 ≤ n && n ≤ 57) || (65 ≤ n && n ≤ 90) || (97 ≤ n && n ≤ 122) || n == 95

/-- RE2 `[a-z]`. -/
def isLowerAscii (c : Char) : Bool :=
  let n := c.toNat
  97 ≤ n && n ≤ 122

/-- RE2 `\s`, i.e. `[\t\n\f\r ]`. -/
def isSpaceRe2 (c : Char) : Bool :=
  let n := c.toNat
  n == 9 || n == 10 || n == 12 || n == 13 || n == 32

/-- Character class of one path segment: `[^"'\s><\\\x7b\x7d]`
(everything except double quote 34, apostrophe 39, whitespace, 62, 60,
backslash 92, brace 123, brace 125). -/
def isSegChar (c : Char) : Bool :=
  let n := c.toNat
  !(isSpaceRe2 c || n == 34 || n == 39 || n == 62 || n == 60 || n == 92 ||
    n == 123 || n == 125)

/-- Length of the longest run of characters satisfying `p` at the head. -/
def runLen (p : Char → Bool) : List Char → Nat
  | [] => 0
  | c :: cs => if p c then runLen p cs + 1 else 0

/-- One iteration of `(\w+\.)` with maximal munch of `\w+`: returns the
number of consumed characters and the remainder. -/
def labelSplit (cs : List Char) : Option (Nat × List Char) :=
  let n := runLen isWordChar cs
  if n = 0 then none
  else
    match cs.drop n with
    | c :: rest => if c = '.' then some (n + 1, rest) else none
    | [] => none

/-- Matched length of `(\w+\.)+[a-z]\x7b2,5\x7d` under leftmost-first
(Perl/RE2) semantics: the `+` loop prefers more iterations, backtracking
from the deepest one, and `[a-z]\x7b2,5\x7d` is greedy. Structured with a
fuel argument (any fuel at least the list length suffices, since one
label consumes at least two characters) so that the definition is
structural and computes by kernel reduction. -/
def hostMatchAux : Nat → List Char → Option Nat
  | 0, _ => none
  | fuel + 1, cs =>
    match labelSplit cs with
    | none => none
    | some (k, rest) =>
      match hostMatchAux fuel rest with
      | some m => some (k + m)
      | none =>
        let l := runLen isLowerAscii rest
        if 2 ≤ l then some (k + min 5 l) else none

/-- Matched length of `(\w+\.)+[a-z]\x7b2,5\x7d`, fuel instantiated. -/
def hostMatch (cs : List Char) : Option Nat :=
  hostMatchAux cs.length cs

/-- Matched length of `(/[^"'\s><\\\x7b\x7d]+)*`: since `/` itself belongs
to the segment class, the whole group consumes the maximal run of segment
characters provided it starts with `/` and has at least one more
character; otherwise it matches the empty string. -/
def pathLen (cs : List Char) : Nat :=
  match cs with
  | c :: _ =>
    if c = '/' then
      let r := runLen isSegChar cs
      if 2 ≤ r then r else 0
    else 0
  | [] => 0

/-- Matched length of `https?://` (the optional `s` is forced by the
following `://`, so the scheme is deterministic). -/
def schemeLen (cs : List Char) : Option Nat :=
  if cs.take 8 = "https://".toList then some 8
  else if cs.take 7 = "http://".toList then some 7
  else none

/-- Length of the anchored leftmost-first regex match (0 when the regex
does not match, which coincides with `FindString` returning `""` because
every match is nonempty). -/
def extractCore (cs : List Char) : Nat :=
  match schemeLen cs with
  | none => 0
  | some q =>
    match hostMatch (cs.drop q) with
    | none => 0
    | some hm => q + hm + pathLen (cs.drop (q + hm))

/-- Embedding of `_ExtractUrl` (main.go lines 115-118):
`urlPattern.FindString(url)` with the anchored pattern. -/
def _ExtractUrl (s : String) : String :=
  String.mk (s.toList.take (extractCore s.toList))

/-! ### The specification grammar `scheme://host(/path-segment)*`

Spec-side definitions (§4.2 of the spec), used only to compare
`_ExtractUrl` against the words of the spec: a valid URL prefix is a
scheme, one or more dotted word labels, a 2-5 letter lowercase TLD, and
any number of path segments. -/

/-- Character list that is exactly `(\w+\.)+`: one or more nonempty word
runs, each followed by a dot. -/
inductive LabelsM : List Char → Prop
  | one (w : List Char) : w ≠ [] → w.all isWordChar → LabelsM (w ++ ['.'])
  | cons (w : List Char) (rest : List Char) : w ≠ [] → w.all isWordChar →
      LabelsM rest → LabelsM (w ++ '.' :: rest)

/-- Character list that is exactly `[a-z]\x7b2,5\x7d`. -/
def TldOk (t : List Char) : Prop :=
  2 ≤ t.length ∧ t.length ≤ 5 ∧ t.all isLowerAscii

/-- Character list that is exactly `(/[^"'\s><\\\x7b\x7d]+)*`. -/
inductive PathM : List Char → Prop
  | nil : PathM []
  | cons (seg rest : List Char) : seg ≠ [] → seg.all isSegChar →
      PathM rest → PathM ('/' :: seg ++ rest)

/-- Character list that is exactly a full `scheme://host(/path-segment)*`
URL of the spec grammar. -/
def UrlM (cs : List Char) : Prop :=
  ∃ sch labs tld path, cs = sch ++ labs ++ tld ++ path ∧
    (sch = "https://".toList ∨ sch = "http://".toList) ∧
    LabelsM labs ∧ TldOk tld ∧ PathM path

/-! ### Data model (main.go lines 21-40, 108-113) -/

/-- Embedding of `User` (login, id, type, repos_url). -/
structure User where
  login : String
  id : Int
  type : String
  reposUrl : String
deriving DecidableEq, Repr

/-- Embedding of `Repository` (id, owner, name, full_name, clone_url). -/
structure Repository where
  id : Int
  owner : User
  name : String
  fullName : String
  url : String
deriving DecidableEq, Repr

/-- Embedding of `Organization` (id, login, repos_url, members_url). -/
structure Organization where
  id : Int
  login : String
  reposUrl : String
  membersUrl : String
deriving DecidableEq, Repr

/-- Embedding of `TargetFile`. `repo` is a Go pointer: `none` is `nil`
(the zero value of the slice element). Blob bytes are listed as naturals. -/
structure TargetFile where
  filename : String
  data : List Nat
  repo : Option Repository
deriving DecidableEq, Repr

/-! ### HTTP layer (main.go lines 42-60, 120-161)

Every HTTP call is modelled by an `HttpReply`: the transport error flag
(`err != nil`), the status code, and the result of `json.Unmarshal` of
the body into the target type (`none` when the body does not decode; a
body `\x7b\x7d` decodes into the zero value of the struct). `log.Fatal`
is modelled as an `Except.error` of kind `FatalError`. -/

/-- Outcome of one `http.Get` plus decoding of its body into `α`. -/
structure HttpReply (α : Type) where
  transportError : Bool
  status : Nat
  decoded : Option α
deriving DecidableEq, Repr

/-- Kinds of `log.Fatal` exits in main.go. -/
inductive FatalError
  | network
  | rateLimited
  | decodeFailed
deriving DecidableEq, Repr

/-- The external HTTP world: what each GET returns, per target type. -/
structure World where
  orgReply : String → HttpReply Organization
  usersReply : String → HttpReply (List User)
  reposReply : String → HttpReply (List Repository)

/-- Response handling of `_GetRepositories` (lines 44-59): fatal on
transport error, fatal on 403, fatal on decode failure, otherwise the
decoded list. No other status code is inspected. -/
def handleReposReply (r : HttpReply (List Repository)) :
    Except FatalError (List Repository) :=
  if r.transportError then .error .network
  else if r.status = 403 then .error .rateLimited
  else
    match r.decoded with
    | none => .error .decodeFailed
    | some repos => .ok repos

/-- Response handling of `GetOrganization` (lines 121-137). -/
def handleOrgReply (r : HttpReply Organization) :
    Except FatalError Organization :=
  if r.transportError then .error .network
  else if r.status = 403 then .error .rateLimited
  else
    match r.decoded with
    | none => .error .decodeFailed
    | some org => .ok org

/-- Response handling of `GetMembers` (lines 141-160): fatal on transport
error and on 403, but a decode failure soft-fails to the empty list
(lines 156-158). -/
def handleUsersReply (r : HttpReply (List User)) :
    Except FatalError (List User) :=
  if r.transportError then .error .network
  else if r.status = 403 then .error .rateLimited
  else
    match r.decoded with
    | none => .ok []
    | some users => .ok users

/-- Embedding of `_GetRepositories` (lines 42-60). The first component
is the list of URLs actually fetched. -/
def _GetRepositories (w : World) (url : String) :
    List String × Except FatalError (List Repository) :=
  ([url], handleReposReply (w.reposReply url))

/-- Embedding of `(*User).GetRepositories` (lines 62-64): the repos URL
is normalized before the fetch. -/
def userGetRepositories (w : World) (u : User) :
    List String × Except FatalError (List Repository) :=
  _GetRepositories w (_ExtractUrl u.reposUrl)

/-- Embedding of `(*Organization).GetRepositories` (lines 66-68). -/
def orgGetRepositories (w : World) (org : Organization) :
    List String × Except FatalError (List Repository) :=
  _GetRepositories w (_ExtractUrl org.reposUrl)

/-- Embedding of `GetOrganization` (lines 120-138). -/
def GetOrganization (w : World) (url : String) :
    List String × Except FatalError Organization :=
  ([url], handleOrgReply (w.orgReply url))

/-- Embedding of `(*Organization).GetMembers` (lines 140-161). The fetch
on line 141 targets the raw `org.MembersUrl`; line 143 only prints
`_ExtractUrl(org.MembersUrl)` without using it for the request. -/
def GetMembers (w : World) (org : Organization) :
    List String × Except FatalError (List User) :=
  ([org.membersUrl], handleUsersReply (w.usersReply org.membersUrl))

/-! ### Repository set builder (main.go lines 175-186) -/

/-- The skip test of line 179, negated: `true` when the repository is
appended. -/
def keepRepo (orgLogin : String) (rp : Repository) : Bool :=
  !(rp.owner.type == "Organization" && rp.owner.login == orgLogin)

/-- Inner loop of lines 178-184: walk one member's repositories,
`continue` on the skip test, otherwise append. -/
def appendMemberRepos (orgLogin : String) (repos userRepos : List Repository) :
    List Repository :=
  userRepos.foldl
    (fun acc rp =>
      if rp.owner.type == "Organization" && rp.owner.login == orgLogin then acc
      else acc ++ [rp])
    repos

/-- Outer loop of lines 175-186 over the already-fetched member
repository lists: start from the organization's own list, then append
each member's kept repositories. -/
def buildRepoSet (orgLogin : String) (orgRepos : List Repository)
    (memberRepoLists : List (List Repository)) : List Repository :=
  memberRepoLists.foldl (appendMemberRepos orgLogin) orgRepos

/-- Member loop of `FullRecon` (lines 175-186) including the per-member
fetch: accumulates the fetched URLs and the merged repository list. -/
def memberLoop (w : World) (org : Organization) :
    List User → List Repository → List String →
    List String × Except FatalError (List Repository)
  | [], repos, tr => (tr, .ok repos)
  | u :: rest, repos, tr =>
    let fetched := userGetRepositories w u
    match fetched.2 with
    | .error e => (tr ++ fetched.1, .error e)
    | .ok userRepos =>
      memberLoop w org rest (appendMemberRepos org.login repos userRepos)
        (tr ++ fetched.1)

/-- Discovery phase of `FullRecon` (lines 163-186): organization fetch,
members fetch, organization repositories fetch, then the member loop.
Returns the fetched URLs and the merged repository list. -/
def fullReconDiscovery (w : World) (url : String) :
    List String × Except FatalError (List Repository) :=
  let orgF := GetOrganization w url
  match orgF.2 with
  | .error e => (orgF.1, .error e)
  | .ok org =>
    let usersF := GetMembers w org
    match usersF.2 with
    | .error e => (orgF.1 ++ usersF.1, .error e)
    | .ok users =>
      let reposF := orgGetRepositories w org
      match reposF.2 with
      | .error e => (orgF.1 ++ usersF.1 ++ reposF.1, .error e)
      | .ok orgRepos =>
        memberLoop w org users orgRepos (orgF.1 ++ usersF.1 ++ reposF.1)

/-! ### Tree flattener `ParseRepository` (main.go lines 79-106)

The acquired object store is modelled by the tree objects (each one the
`Entries` of a decoded tree, in the store's iteration order) and the blob
objects (hash and bytes, in iteration order). The `names` map is an
association list with one entry per key; `make([]TargetFile, len(names))`
is a list of `len(names)` zero values, and an indexed write past its end
is a Go runtime panic, modelled as `none`. -/

/-- Git file modes occurring in tree entries. -/
inductive GoFileMode
  | regular
  | executable
  | dir
  | symlink
  | submodule
deriving DecidableEq, Repr

/-- One entry of a decoded tree object. -/
structure TreeEntry where
  name : String
  mode : GoFileMode
  hash : Nat
deriving DecidableEq, Repr

/-- The in-memory object store produced by the clone, with a fixed
iteration order for its `Trees` and `Blobs` maps. -/
structure MemStorage where
  trees : List (List TreeEntry)
  blobs : List (Nat × List Nat)
deriving DecidableEq, Repr

/-- Go map write `names[k] = v`: overwrite in place, else append. -/
def mapSet (m : List (Nat × String)) (k : Nat) (v : String) :
    List (Nat × String) :=
  if m.any (fun p => p.1 == k) then
    m.map (fun p => if p.1 == k then (k, v) else p)
  else m ++ [(k, v)]

/-- Go map read `names[k]` with the zero-value default `""`. -/
def mapGet (m : List (Nat × String)) (k : Nat) : String :=
  match m.find? (fun p => p.1 == k) with
  | some p => p.2
  | none => ""

/-- Lines 79-89: walk every tree object, record `entry.Hash -> entry.Name`
for every entry of regular-file mode. -/
def buildNames (trees : List (List TreeEntry)) : List (Nat × String) :=
  trees.foldl
    (fun m entries =>
      entries.foldl
        (fun m e => if e.mode == .regular then mapSet m e.hash e.name else m)
        m)
    []

/-- Go slice write `targets[i] = x`: out-of-range is a panic (`none`). -/
def sliceSet (l : List TargetFile) (i : Nat) (x : TargetFile) :
    Option (List TargetFile) :=
  if i < l.length then some (l.set i x) else none

/-- Lines 92-103: write one `TargetFile` per blob at consecutive indices
of the preallocated slice. -/
def blobLoop (names : List (Nat × String)) (repo : Repository) :
    List (Nat × List Nat) → Nat → List TargetFile → Option (List TargetFile)
  | [], _, targets => some targets
  | (h, data) :: rest, i, targets =>
    match sliceSet targets i ⟨mapGet names h, data, some repo⟩ with
    | none => none
    | some targets2 => blobLoop names repo rest (i + 1) targets2

/-- Embedding of `ParseRepository` lines 79-106 (after the clone): build
the names map, preallocate `len(names)` zero-valued `TargetFile`s, then
fill one per blob. `none` is a runtime panic. -/
def ParseRepository (store : MemStorage) (repo : Repository) :
    Option (List TargetFile) :=
  let names := buildNames store.trees
  blobLoop names repo store.blobs 0
    (List.replicate names.length ⟨"", [], none⟩)

/-! ### Resource wiring of `FullRecon` / `ParseRepository`

`memfs.New()` (line 192) runs once, before the dispatch loop; every task
is handed a pointer to that single filesystem, and each `ParseRepository`
call makes one fresh `memory.NewStorage()` (line 71). Allocation
identifiers stand for object identity: distinct constructor calls yield
distinct identifiers. The order in which concurrent tasks allocate their
stores does not matter for the stated properties, so the allocations are
listed in task order. -/

/-- Resources used by one `ParseRepository` invocation. -/
structure CloneResources where
  fsId : Nat
  storeId : Nat
deriving DecidableEq, Repr

/-- One `ParseRepository` call: a fresh store from the allocator, the
filesystem it was handed. -/
def parseRepositoryAlloc (fsId : Nat) (ctr : Nat) : CloneResources × Nat :=
  (⟨fsId, ctr⟩, ctr + 1)

/-- The per-task `ParseRepository` calls of the dispatch loop, threading
the allocator counter. -/
def cloneLoop (fsId : Nat) : Nat → Nat → List CloneResources
  | 0, _ => []
  | k + 1, ctr =>
    let pr := parseRepositoryAlloc fsId ctr
    pr.1 :: cloneLoop fsId k pr.2

/-- Resource allocations of one `FullRecon` over `nRepos` repositories:
allocation 0 is the single `memfs.New()`, every task then clones into a
fresh store while sharing that filesystem. -/
def fullReconAllocs (nRepos : Nat) : List CloneResources :=
  cloneLoop 0 nRepos 1

/-! ### Concurrent dispatch loop of `FullRecon` (main.go lines 192-209)

Small-step interleaving semantics. The Go `for _, repo := range repos`
loop variable is one shared slot written at the top of every iteration;
`input <- &repo` is an unbuffered-channel rendezvous handing a pointer to
that slot to one waiting task; the task dereferences the slot when its
read step is scheduled, which may happen after the main loop has
overwritten the slot. `wg` counts `Add(1)` at spawn and `Done()` at task
completion, and `wg.Wait()` returns only at counter zero. -/

/-- Lifecycle of one spawned task (the goroutine of lines 197-204). -/
inductive TaskPhase
  | waiting
  | received
  | running (r : Repository)
  | finished (r : Repository)
deriving DecidableEq, Repr

/-- Program counter of the main flow of lines 195-209. -/
inductive MainPhase
  | atWrite (i : Nat)
  | atSpawn (i : Nat)
  | atSend (i : Nat)
  | atJoin
  | returned
deriving DecidableEq, Repr

/-- Global state of the dispatch pipeline. -/
structure DState where
  repos : List Repository
  main : MainPhase
  slot : Option Repository
  tasks : List TaskPhase
  wg : Nat
deriving DecidableEq, Repr

/-- Scheduler labels: one per atomic step of main or of a task. -/
inductive Lab
  | mWrite
  | mSpawn
  | mSend (j : Nat)
  | tRead (j : Nat)
  | tFinish (j : Nat)
  | mJoin
deriving DecidableEq, Repr

/-- One atomic step; `none` when the label is not enabled. -/
def dstep (st : DState) : Lab → Option DState
  | .mWrite =>
    match st.main with
    | .atWrite i =>
      match st.repos[i]? with
      | some r => some { st with slot := some r, main := .atSpawn i }
      | none => some { st with main := .atJoin }
    | _ => none
  | .mSpawn =>
    match st.main with
    | .atSpawn i =>
      some { st with tasks := st.tasks ++ [.waiting], wg := st.wg + 1,
                     main := .atSend i }
    | _ => none
  | .mSend j =>
    match st.main with
    | .atSend i =>
      match st.tasks[j]? with
      | some .waiting =>
        some { st with tasks := st.tasks.set j .received,
                       main := .atWrite (i + 1) }
      | _ => none
    | _ => none
  | .tRead j =>
    match st.tasks[j]?, st.slot with
    | some .received, some r => some { st with tasks := st.tasks.set j (.running r) }
    | _, _ => none
  | .tFinish j =>
    match st.tasks[j]? with
    | some (.running r) =>
      some { st with tasks := st.tasks.set j (.finished r), wg := st.wg - 1 }
    | _ => none
  | .mJoin =>
    match st.main with
    | .atJoin => if st.wg = 0 then some { st with main := .returned } else none
    | _ => none

/-- Run a schedule; `none` as soon as a label is not enabled. -/
def dexec : List Lab → DState → Option DState
  | [], st => some st
  | lab :: rest, st =>
    match dstep st lab with
    | none => none
    | some st2 => dexec rest st2

/-- Initial state of the dispatch over `repos`. -/
def dinit (repos : List Repository) : DState :=
  ⟨repos, .atWrite 0, none, [], 0⟩

/-! ### Hook dispatch inside one task (main.go lines 199-203) -/

/-- Inner loop of line 200-202: invoke every hook, in list order, on one
file. The trace records each invocation. -/
def hookLoop (file : TargetFile) (hooks : List α) : List (TargetFile × α) :=
  hooks.map (fun h => (file, h))

/-- Outer loop of line 199-203: for every extracted file, in flattening
order, run the whole hook list before moving to the next file. -/
def fileLoop (hooks : List α) : List TargetFile → List (TargetFile × α)
  | [] => []
  | file :: rest => hookLoop file hooks ++ fileLoop hooks rest

/-- A reply whose transport succeeded, whose status is not 403, and whose
body decodes to `v`. -/
def replyOk {α : Type} (r : HttpReply α) (v : α) : Prop :=
  r.transportError = false ∧ r.status ≠ 403 ∧ r.decoded = some v

/-- A reply whose transport succeeded and whose status is not 403, but
whose body does not decode into the target type. -/
def replyUndecodable {α : Type} (r : HttpReply α) : Prop :=
  r.transportError = false ∧ r.status ≠ 403 ∧ r.decoded = none

/-- The Go zero value of `Organization`, i.e. what `json.Unmarshal` of
the body `\x7b\x7d` leaves in the struct. -/
def zeroOrganization : Organization := ⟨0, "", "", ""⟩

/-- Tasks that have not yet executed `wg.Done()`. -/
def unfinishedTask : TaskPhase → Bool
  | .finished _ => false
  | _ => true

/-- Every repository value a task has read came from the repository
list. -/
def taskValueOk (repos : List Repository) : TaskPhase → Prop
  | .running r => r ∈ repos
  | .finished r => r ∈ repos
  | _ => True

/-- Inductive invariant of the dispatch semantics: the task count follows
the main program counter, `wg` counts unfinished tasks, the shared slot
and every task-held value come from the repository list, and a returned
main has seen `wg = 0`. -/
def DInv (st : DState) : Prop :=
  (match st.main with
   | .atWrite i => st.tasks.length = i ∧ i ≤ st.repos.length
   | .atSpawn i => st.tasks.length = i ∧ i < st.repos.length
   | .atSend i => st.tasks.length = i + 1 ∧ i < st.repos.length
   | .atJoin => st.tasks.length = st.repos.length
   | .returned => st.tasks.length = st.repos.length) ∧
  st.wg = st.tasks.countP unfinishedTask ∧
  (∀ r, st.slot = some r → r ∈ st.repos) ∧
  (∀ t ∈ st.tasks, taskValueOk st.repos t) ∧
  (st.main = .returned → st.wg = 0)

/-! ### Concrete fixtures for witnesses and counterexamples -/

/-- A user-owned account. -/
def aliceOwner : User := ⟨"alice", 10, "User", "https://api.github.com/users/alice/repos"⟩

/-- The organization account of `acme`. -/
def acmeOwner : User := ⟨"acme", 20, "Organization", "https://api.github.com/orgs/acme/repos"⟩

/-- An account with the organization's login but of type `User`. -/
def acmeUserOwner : User := ⟨"acme", 30, "User", "https://api.github.com/users/acme/repos"⟩

/-- A repository owned by the member. -/
def repoA : Repository := ⟨1, aliceOwner, "a", "alice/a", "https://github.com/alice/a.git"⟩

/-- A second, distinct repository. -/
def repoB : Repository := ⟨2, aliceOwner, "b", "alice/b", "https://github.com/alice/b.git"⟩

/-- An organization-owned repository as reported in a member's list. -/
def repoOrg : Repository := ⟨3, acmeOwner, "c", "acme/c", "https://github.com/acme/c.git"⟩

/-- A repository whose owner shares the organization's login but is a
`User` account. -/
def repoUserLogin : Repository := ⟨4, acmeUserOwner, "d", "acme/d", "https://github.com/acme/d.git"⟩

/-- The organization under scan in the fixtures. -/
def acmeOrg : Organization :=
  ⟨20, "acme", "https://api.github.com/orgs/acme/repos",
   "https://api.github.com/orgs/acme/members\x7b/member\x7d"⟩

/-- A store with two distinct blobs of which only one is referenced by a
regular-mode tree entry (the other is, e.g., an executable script). -/
def storeWithExec : MemStorage :=
  ⟨[[⟨"a.txt", .regular, 1⟩, ⟨"run.sh", .executable, 2⟩]],
   [(1, [104, 105]), (2, [35, 33])]⟩

/-- A schedule of the dispatch over `[repoA, repoB]` in which task 0
reads the shared slot only after the main loop has overwritten it with
the second repository. -/
def racySchedule : List Lab :=
  [.mWrite, .mSpawn, .mSend 0, .mWrite, .tRead 0, .mSpawn, .mSend 1,
   .tRead 1, .tFinish 0, .tFinish 1, .mWrite, .mJoin]

/-- A complete, race-free schedule of the dispatch over `[repoA]`. -/
def cleanSchedule : List Lab :=
  [.mWrite, .mSpawn, .mSend 0, .tRead 0, .tFinish 0, .mWrite, .mJoin]

/-- A world whose every reply is benign and undecodable; `GetMembers`
ignores the reply when computing which URL it fetches. -/
def quietWorld : World :=
  ⟨fun _ => ⟨false, 200, none⟩, fun _ => ⟨false, 200, none⟩,
   fun _ => ⟨false, 200, none⟩⟩

/-- A world in which the organization and its repositories decode fine
but the members body is malformed. -/
def demoWorld : World :=
  ⟨fun u => if u == "https://api.github.com/orgs/acme" then ⟨false, 200, some acmeOrg⟩
            else ⟨false, 200, none⟩,
   fun _ => ⟨false, 200, none⟩,
   fun u => if u == "https://api.github.com/orgs/acme/repos" then ⟨false, 200, some [repoA]⟩
            else ⟨false, 200, none⟩⟩

/-- An extracted file fixture. -/
def tfA : TargetFile := ⟨"a.txt", [104, 105], some repoA⟩

/-- A second extracted file fixture. -/
def tfB : TargetFile := ⟨"b.txt", [104], some repoA⟩

/-! ## Theorems -/

/-! ### Repository set builder: lemmas -/

theorem appendMemberRepos_eq (orgLogin : String) (repos us : List Repository) :
    appendMemberRepos orgLogin repos us = repos ++ us.filter (keepRepo orgLogin) := by
  induction us generalizing repos with
  | nil => simp [appendMemberRepos]
  | cons u us ih =>
    simp only [appendMemberRepos, List.foldl_cons] at *
    by_cases h : (u.owner.type == "Organization" && u.owner.login == orgLogin) = true
    · rw [if_pos h, ih repos]
      have hk : keepRepo orgLogin u = false := by simp [keepRepo, h]
      simp [List.filter_cons, hk]
    · rw [if_neg h, ih (repos ++ [u])]
      simp only [Bool.not_eq_true] at h
      have hk : keepRepo orgLogin u = true := by simp [keepRepo, h]
      simp [List.filter_cons, hk]

theorem buildRepoSet_eq (orgLogin : String) (orgRepos : List Repository)
    (ls : List (List Repository)) :
    buildRepoSet orgLogin orgRepos ls =
      orgRepos ++ (ls.map (fun l => l.filter (keepRepo orgLogin))).flatten := by
  induction ls generalizing orgRepos with
  | nil => simp [buildRepoSet]
  | cons l ls ih =>
    simp only [buildRepoSet, List.foldl_cons] at *
    rw [ih (appendMemberRepos orgLogin orgRepos l), appendMemberRepos_eq]
    simp [List.flatten_cons]

/-- Claim C4: the repository set builder starts from the organization's
own list and appends a member repository exactly when it is not an
organization-owned duplicate (`owner.type == "Organization"` and
`owner.login` equal to the scanned organization's login); a repository
whose owner merely shares the login but is of type `"User"` is kept. -/
theorem c4_repo_set_filter (orgLogin : String) (orgRepos : List Repository)
    (ls : List (List Repository)) :
    buildRepoSet orgLogin orgRepos ls =
      orgRepos ++ (ls.map (fun l => l.filter (keepRepo orgLogin))).flatten ∧
    (∀ rp : Repository, keepRepo orgLogin rp = false ↔
      (rp.owner.type = "Organization" ∧ rp.owner.login = orgLogin)) ∧
    (∀ rp : Repository, rp.owner.login = orgLogin → rp.owner.type = "User" →
      keepRepo orgLogin rp = true) := by
  refine ⟨buildRepoSet_eq orgLogin orgRepos ls, ?_, ?_⟩
  · intro rp
    simp [keepRepo]
  · intro rp _ hty
    simp [keepRepo, hty]

/-- Evaluation of the C4 theorem at concrete inputs: an
organization-owned duplicate is dropped, a same-login user-owned
repository is kept. -/
theorem c4_repo_set_filter_witness :
    buildRepoSet "acme" [repoA] [[repoOrg, repoB, repoUserLogin]] =
      [repoA] ++ ([[repoOrg, repoB, repoUserLogin]].map
        (fun l => l.filter (keepRepo "acme"))).flatten ∧
    keepRepo "acme" repoUserLogin = true := by
  refine ⟨(c4_repo_set_filter "acme" [repoA] [[repoOrg, repoB, repoUserLogin]]).1, ?_⟩
  exact (c4_repo_set_filter "acme" [repoA] [[repoOrg, repoB, repoUserLogin]]).2.2
    repoUserLogin (by decide) (by decide)

/-! ### No de-duplication by repository id: lemmas -/

theorem countP_join_one (p : Repository → Bool) (ms : List (List Repository))
    (i : Nat) (li : List Repository) (hi : ms[i]? = some li) :
    li.countP p ≤ ms.flatten.countP p := by
  induction ms generalizing i with
  | nil => simp at hi
  | cons m rest ih =>
    cases i with
    | zero =>
      simp only [List.getElem?_cons_zero, Option.some.injEq] at hi
      subst hi
      simp [List.flatten_cons, List.countP_append]
    | succ i =>
      simp only [List.getElem?_cons_succ] at hi
      have := ih i hi
      simp only [List.flatten_cons, List.countP_append]
      omega

theorem countP_join_two (p : Repository → Bool) (ms : List (List Repository))
    (i j : Nat) (li lj : List Repository) (hij : i < j)
    (hi : ms[i]? = some li) (hj : ms[j]? = some lj) :
    li.countP p + lj.countP p ≤ ms.flatten.countP p := by
  induction ms generalizing i j with
  | nil => simp at hi
  | cons m rest ih =>
    cases i with
    | zero =>
      simp only [List.getElem?_cons_zero, Option.some.injEq] at hi
      subst hi
      cases j with
      | zero => omega
      | succ j =>
        simp only [List.getElem?_cons_succ] at hj
        have := countP_join_one p rest j lj hj
        simp only [List.flatten_cons, List.countP_append]
        omega
    | succ i =>
      cases j with
      | zero => omega
      | succ j =>
        simp only [List.getElem?_cons_succ] at hi hj
        have := ih i j (by omega) hi hj
        simp only [List.flatten_cons, List.countP_append]
        omega

/-- Claim C7: the builder does no de-duplication by repository id — when
two distinct members' lists each contain a kept repository with the same
id, the merged set contains at least two entries with that id. -/
theorem c7_no_dedup_by_id (orgLogin : String) (orgRepos : List Repository)
    (ms : List (List Repository)) (i j : Nat) (li lj : List Repository)
    (rid : Int) (rp1 rp2 : Repository)
    (hij : i < j) (hi : ms[i]? = some li) (hj : ms[j]? = some lj)
    (h1 : rp1 ∈ li) (h2 : rp2 ∈ lj) (hid1 : rp1.id = rid) (hid2 : rp2.id = rid)
    (hk1 : keepRepo orgLogin rp1 = true) (hk2 : keepRepo orgLogin rp2 = true) :
    2 ≤ (buildRepoSet orgLogin orgRepos ms).countP (fun r => r.id == rid) := by
  rw [buildRepoSet_eq, List.countP_append]
  have hmap_i : (ms.map (fun l => l.filter (keepRepo orgLogin)))[i]? =
      some (li.filter (keepRepo orgLogin)) := by
    simp [List.getElem?_map, hi]
  have hmap_j : (ms.map (fun l => l.filter (keepRepo orgLogin)))[j]? =
      some (lj.filter (keepRepo orgLogin)) := by
    simp [List.getElem?_map, hj]
  have hle := countP_join_two (fun r => r.id == rid)
    (ms.map (fun l => l.filter (keepRepo orgLogin))) i j _ _ hij hmap_i hmap_j
  have hc1 : 0 < (li.filter (keepRepo orgLogin)).countP (fun r => r.id == rid) := by
    rw [List.countP_pos_iff]
    exact ⟨rp1, List.mem_filter.mpr ⟨h1, hk1⟩, by simp [hid1]⟩
  have hc2 : 0 < (lj.filter (keepRepo orgLogin)).countP (fun r => r.id == rid) := by
    rw [List.countP_pos_iff]
    exact ⟨rp2, List.mem_filter.mpr ⟨h2, hk2⟩, by simp [hid2]⟩
  omega

/-- Evaluation of the C7 theorem: the same repository listed by two
members appears twice in the merged set. -/
theorem c7_no_dedup_by_id_witness :
    2 ≤ (buildRepoSet "acme" [] [[repoA], [repoA]]).countP
      (fun r => r.id == (1 : Int)) :=
  c7_no_dedup_by_id "acme" [] [[repoA], [repoA]] 0 1 [repoA] [repoA] 1 repoA repoA
    (by decide) (by decide) (by decide) (by decide) (by decide) (by decide)
    (by decide) (by decide) (by decide)

/-! ### Flattener: claim C1 -/

/-- Claim C1 (code bug): on a store whose object graph has two distinct
blobs of which only one is referenced by a regular-mode tree entry, the
flattener does not produce one record per blob with an empty name for the
unreferenced blob — the slice is allocated with `len(names) = 1` slots
and the write of the second blob is an out-of-range panic. -/
theorem c1_flatten_panics_on_unreferenced_blob :
    storeWithExec.blobs.length = 2 ∧
    (storeWithExec.blobs.map Prod.fst).Nodup ∧
    (buildNames storeWithExec.trees).length = 1 ∧
    ParseRepository storeWithExec repoA = none := by
  decide

/-! ### Members fetch URL: claim C5 -/

/-- Claim C5 (code bug): `GetMembers` issues its single fetch against the
raw templated `members_url`; the normalized URL is only printed. The
normalizer would have produced a different (template-free) URL. -/
theorem c5_members_fetch_uses_raw_url :
    (GetMembers quietWorld acmeOrg).1 =
      ["https://api.github.com/orgs/acme/members\x7b/member\x7d"] ∧
    _ExtractUrl acmeOrg.membersUrl = "https://api.github.com/orgs/acme/members" ∧
    acmeOrg.membersUrl ≠ _ExtractUrl acmeOrg.membersUrl := by
  decide

/-! ### Resource isolation: claim C3 -/

theorem cloneLoop_length (fs k c : Nat) : (cloneLoop fs k c).length = k := by
  induction k generalizing c with
  | zero => rfl
  | succ k ih => simp [cloneLoop, parseRepositoryAlloc, ih]

theorem mem_cloneLoop (fs k c : Nat) (r : CloneResources)
    (h : r ∈ cloneLoop fs k c) : r.fsId = fs ∧ c ≤ r.storeId := by
  induction k generalizing c with
  | zero => simp [cloneLoop] at h
  | succ k ih =>
    simp only [cloneLoop, parseRepositoryAlloc, List.mem_cons] at h
    rcases h with h | h
    · subst h; exact ⟨rfl, le_refl c⟩
    · have := ih (c + 1) h
      exact ⟨this.1, by omega⟩

theorem cloneLoop_stores_distinct (fs k c : Nat) :
    (cloneLoop fs k c).Pairwise (fun a b => a.storeId ≠ b.storeId) := by
  induction k generalizing c with
  | zero => exact List.Pairwise.nil
  | succ k ih =>
    refine List.Pairwise.cons ?_ (ih (c + 1))
    intro b hb
    have := mem_cloneLoop fs k (c + 1) b hb
    simp only [parseRepositoryAlloc]
    omega

/-- Counterexample to claim C3: in a run over two repositories, the two
`ParseRepository` invocations use the same virtual filesystem (the single
`memfs.New()` of line 192), so the filesystem is not isolated per
acquisition. -/
theorem c3_fs_shared_counterexample :
    ((fullReconAllocs 2)[0]?).map CloneResources.fsId = some 0 ∧
    ((fullReconAllocs 2)[1]?).map CloneResources.fsId = some 0 ∧
    ((fullReconAllocs 2)[0]?).map CloneResources.storeId ≠
      ((fullReconAllocs 2)[1]?).map CloneResources.storeId := by
  decide

/-- Claim C3 as amended: every acquisition uses a fresh, never-reused
in-memory object store, but all acquisitions of one `FullRecon` run share
the single virtual filesystem created before the dispatch loop. -/
theorem c3_stores_isolated_fs_shared (n : Nat) :
    (fullReconAllocs n).length = n ∧
    (∀ r1 ∈ fullReconAllocs n, ∀ r2 ∈ fullReconAllocs n, r1.fsId = r2.fsId) ∧
    (fullReconAllocs n).Pairwise (fun a b => a.storeId ≠ b.storeId) := by
  refine ⟨cloneLoop_length 0 n 1, ?_, cloneLoop_stores_distinct 0 n 1⟩
  intro r1 h1 r2 h2
  rw [(mem_cloneLoop 0 n 1 r1 h1).1, (mem_cloneLoop 0 n 1 r2 h2).1]

/-- Evaluation of the amended C3 theorem over two repositories. -/
theorem c3_stores_isolated_fs_shared_witness :
    (fullReconAllocs 2).length = 2 ∧
    (⟨0, 1⟩ : CloneResources).fsId = (⟨0, 2⟩ : CloneResources).fsId := by
  refine ⟨(c3_stores_isolated_fs_shared 2).1, ?_⟩
  exact (c3_stores_isolated_fs_shared 2).2.1 ⟨0, 1⟩ (by decide) ⟨0, 2⟩ (by decide)

/-! ### Members soft-fail: claim C6 -/

/-- Claim C6: when the members body does not decode as a JSON list of
users (but the fetch itself succeeded with a non-403 status),
`GetMembers` returns the empty member list instead of failing, and the
discovery still returns the organization's own repositories. -/
theorem c6_members_soft_fail (w : World) (url : String) (org : Organization)
    (rs : List Repository)
    (h1 : replyOk (w.orgReply url) org)
    (h2 : replyUndecodable (w.usersReply org.membersUrl))
    (h3 : replyOk (w.reposReply (_ExtractUrl org.reposUrl)) rs) :
    (GetMembers w org).2 = .ok [] ∧
    (fullReconDiscovery w url).2 = .ok rs := by
  obtain ⟨e1, s1, d1⟩ := h1
  obtain ⟨e2, s2, d2⟩ := h2
  obtain ⟨e3, s3, d3⟩ := h3
  have hm : (GetMembers w org).2 = .ok [] := by
    simp [GetMembers, handleUsersReply, e2, s2, d2]
  refine ⟨hm, ?_⟩
  simp [fullReconDiscovery, GetOrganization, handleOrgReply, e1, s1, d1,
        GetMembers, handleUsersReply, e2, s2, d2,
        orgGetRepositories, _GetRepositories, handleReposReply, e3, s3, d3,
        memberLoop]

/-- Evaluation of the C6 theorem in a world whose members body is
malformed: discovery still returns the organization's repository. -/
theorem c6_members_soft_fail_witness :
    (GetMembers demoWorld acmeOrg).2 = .ok [] ∧
    (fullReconDiscovery demoWorld "https://api.github.com/orgs/acme").2 =
      .ok [repoA] :=
  c6_members_soft_fail demoWorld "https://api.github.com/orgs/acme" acmeOrg
    [repoA] ⟨by decide, by decide, by decide⟩ ⟨by decide, by decide, by decide⟩
    ⟨by decide, by decide, by decide⟩

/-! ### Hook dispatch order: claim C9 -/

theorem fileLoop_length {α : Type} (hooks : List α) (files : List TargetFile) :
    (fileLoop hooks files).length = files.length * hooks.length := by
  induction files with
  | nil => simp [fileLoop]
  | cons f rest ih =>
    simp only [fileLoop, List.length_append, List.length_cons, ih, hookLoop,
      List.length_map]
    rw [Nat.succ_mul]
    omega

/-- Claim C9: within one task, the invocation trace of the hook loop has
one entry per (file, hook) pair, laid out so that entry `i` is hook
`i % H` applied to file `i / H` — files in flattening order, all `H`
hooks of file `N` (in declared order) strictly before any hook of file
`N + 1`. -/
theorem c9_hook_invocation_order {α : Type} (hooks : List α)
    (files : List TargetFile) :
    (fileLoop hooks files).length = files.length * hooks.length ∧
    ∀ i : Nat, i < files.length * hooks.length →
      ∃ f h, files[i / hooks.length]? = some f ∧
        hooks[i % hooks.length]? = some h ∧
        (fileLoop hooks files)[i]? = some (f, h) := by
  refine ⟨fileLoop_length hooks files, ?_⟩
  intro i hi
  induction files generalizing i with
  | nil => simp at hi
  | cons f rest ih =>
    by_cases hH : i < hooks.length
    · have hdiv : i / hooks.length = 0 := Nat.div_eq_of_lt hH
      have hmod : i % hooks.length = i := Nat.mod_eq_of_lt hH
      refine ⟨f, hooks[i], ?_, ?_, ?_⟩
      · simp [hdiv]
      · rw [hmod]
        exact List.getElem?_eq_getElem hH
      · have hlen : i < (hookLoop f hooks).length := by
          simpa [hookLoop] using hH
        rw [show fileLoop hooks (f :: rest) = hookLoop f hooks ++ fileLoop hooks rest from rfl]
        rw [List.getElem?_append_left hlen]
        simp [hookLoop, List.getElem?_map, List.getElem?_eq_getElem hH]
    · push_neg at hH
      have hH0 : 0 < hooks.length := by
        rcases Nat.eq_zero_or_pos hooks.length with h0 | h0
        · rw [h0, Nat.mul_zero] at hi
          exact absurd hi (by omega)
        · exact h0
      have hsm : (rest.length + 1) * hooks.length =
          rest.length * hooks.length + hooks.length := Nat.succ_mul _ _
      have hi2 : i - hooks.length < rest.length * hooks.length := by
        simp only [List.length_cons] at hi
        omega
      obtain ⟨f2, h2, hf2, hh2, ht2⟩ := ih (i - hooks.length) hi2
      have hdiv : i / hooks.length = (i - hooks.length) / hooks.length + 1 := by
        conv_lhs => rw [show i = (i - hooks.length) + hooks.length by omega]
        rw [Nat.add_div_right _ hH0]
      have hmod : i % hooks.length = (i - hooks.length) % hooks.length := by
        conv_lhs => rw [show i = (i - hooks.length) + hooks.length by omega]
        rw [Nat.add_mod_right]
      refine ⟨f2, h2, ?_, ?_, ?_⟩
      · rw [hdiv]
        simpa using hf2
      · rw [hmod]
        exact hh2
      · have hlen : (hookLoop f hooks).length ≤ i := by
          simpa [hookLoop] using hH
        rw [show fileLoop hooks (f :: rest) = hookLoop f hooks ++ fileLoop hooks rest from rfl]
        rw [List.getElem?_append_right hlen]
        simpa [hookLoop] using ht2

/-- Evaluation of the C9 theorem with two files and two hooks at
invocation index 3: the second hook applied to the second file. -/
theorem c9_hook_invocation_order_witness :
    (fileLoop [0, 1] [tfA, tfB]).length =
      [tfA, tfB].length * ([0, 1] : List Nat).length ∧
    (∃ f h, [tfA, tfB][3 / ([0, 1] : List Nat).length]? = some f ∧
      ([0, 1] : List Nat)[3 % ([0, 1] : List Nat).length]? = some h ∧
      (fileLoop [0, 1] [tfA, tfB])[3]? = some (f, h)) :=
  ⟨(c9_hook_invocation_order [0, 1] [tfA, tfB]).1,
   (c9_hook_invocation_order [0, 1] [tfA, tfB]).2 3 (by decide)⟩

/-! ### Status handling outside 403: claim C10 -/

/-- Claim C10: the response handlers of `GetOrganization`,
`_GetRepositories` and `GetMembers` inspect the status only through the
`== 403` test — two non-403 replies agreeing on the transport flag and
the decoded body are handled identically — and a 404 or 500 reply whose
body is the JSON object `\x7b\x7d` (decoding to the zero-valued
`Organization`) makes `GetOrganization` return that zero value with no
error. -/
theorem c10_no_status_check_outside_403 :
    (∀ r1 r2 : HttpReply Organization, r1.transportError = r2.transportError →
      r1.decoded = r2.decoded → r1.status ≠ 403 → r2.status ≠ 403 →
      handleOrgReply r1 = handleOrgReply r2) ∧
    (∀ r1 r2 : HttpReply (List Repository), r1.transportError = r2.transportError →
      r1.decoded = r2.decoded → r1.status ≠ 403 → r2.status ≠ 403 →
      handleReposReply r1 = handleReposReply r2) ∧
    (∀ r1 r2 : HttpReply (List User), r1.transportError = r2.transportError →
      r1.decoded = r2.decoded → r1.status ≠ 403 → r2.status ≠ 403 →
      handleUsersReply r1 = handleUsersReply r2) ∧
    (∀ (w : World) (url : String),
      (GetOrganization w url).2 = handleOrgReply (w.orgReply url)) ∧
    handleOrgReply ⟨false, 404, some zeroOrganization⟩ = .ok zeroOrganization ∧
    handleOrgReply ⟨false, 500, some zeroOrganization⟩ = .ok zeroOrganization := by
  refine ⟨?_, ?_, ?_, fun _ _ => rfl, rfl, rfl⟩
  · rintro ⟨te1, s1, d1⟩ ⟨te2, s2, d2⟩ he hd h1 h2
    simp only at he hd h1 h2
    subst he; subst hd
    cases te1 <;> simp [handleOrgReply, h1, h2]
  · rintro ⟨te1, s1, d1⟩ ⟨te2, s2, d2⟩ he hd h1 h2
    simp only at he hd h1 h2
    subst he; subst hd
    cases te1 <;> simp [handleReposReply, h1, h2]
  · rintro ⟨te1, s1, d1⟩ ⟨te2, s2, d2⟩ he hd h1 h2
    simp only at he hd h1 h2
    subst he; subst hd
    cases te1 <;> simp [handleUsersReply, h1, h2]

/-- Evaluation of the C10 theorem: a 404 and a 500 organization reply
with the same decoded body are handled identically. -/
theorem c10_no_status_check_outside_403_witness :
    handleOrgReply ⟨false, 404, some zeroOrganization⟩ =
      handleOrgReply ⟨false, 500, some zeroOrganization⟩ :=
  c10_no_status_check_outside_403.1
    ⟨false, 404, some zeroOrganization⟩ ⟨false, 500, some zeroOrganization⟩
    rfl rfl (by decide) (by decide)

/-! ### Dispatch pipeline: claim C2 -/

theorem countP_set_eq (p : TaskPhase → Bool) (l : List TaskPhase) (j : Nat)
    (v x : TaskPhase) (hx : l[j]? = some x) :
    (l.set j v).countP p + (if p x then 1 else 0) =
      l.countP p + (if p v then 1 else 0) := by
  induction l generalizing j with
  | nil => simp at hx
  | cons a t ih =>
    cases j with
    | zero =>
      simp only [List.getElem?_cons_zero, Option.some.injEq] at hx
      subst hx
      simp only [List.set_cons_zero, List.countP_cons]
      omega
    | succ j =>
      simp only [List.getElem?_cons_succ] at hx
      have := ih j hx
      simp only [List.set_cons_succ, List.countP_cons]
      omega

theorem dstep_dinv {st st' : DState} {lab : Lab} (hinv : DInv st)
    (h : dstep st lab = some st') : DInv st' ∧ st'.repos = st.repos := by
  obtain ⟨hmain, hwg, hslot, htasks, hret⟩ := hinv
  cases lab with
  | mWrite =>
    simp only [dstep] at h
    cases hm : st.main with
    | atWrite i =>
      rw [hm] at h hmain
      simp only at h hmain
      cases hx : st.repos[i]? with
      | some r =>
        rw [hx] at h
        simp only [Option.some.injEq] at h
        subst h
        refine ⟨⟨⟨hmain.1, ?_⟩, hwg, ?_, htasks, by simp⟩, rfl⟩
        · exact List.getElem?_eq_some.mp hx |>.fst
        · intro r2 hr2
          simp only [Option.some.injEq] at hr2
          exact hr2 ▸ List.getElem?_mem hx
      | none =>
        rw [hx] at h
        simp only [Option.some.injEq] at h
        subst h
        have hle := List.getElem?_eq_none_iff.mp hx
        refine ⟨⟨?_, hwg, hslot, htasks, by simp⟩, rfl⟩
        simp only
        omega
    | atSpawn i => rw [hm] at h; simp at h
    | atSend i => rw [hm] at h; simp at h
    | atJoin => rw [hm] at h; simp at h
    | returned => rw [hm] at h; simp at h
  | mSpawn =>
    simp only [dstep] at h
    cases hm : st.main with
    | atSpawn i =>
      rw [hm] at h hmain
      simp only at h hmain
      simp only [Option.some.injEq] at h
      subst h
      refine ⟨⟨?_, ?_, hslot, ?_, by simp⟩, rfl⟩
      · simp only [List.length_append, List.length_cons, List.length_nil]
        omega
      · simp [List.countP_append, hwg, unfinishedTask]
      · intro t ht
        rcases List.mem_append.mp ht with h1 | h1
        · exact htasks t h1
        · simp only [List.mem_singleton] at h1
          subst h1
          trivial
    | atWrite i => rw [hm] at h; simp at h
    | atSend i => rw [hm] at h; simp at h
    | atJoin => rw [hm] at h; simp at h
    | returned => rw [hm] at h; simp at h
  | mSend j =>
    simp only [dstep] at h
    cases hm : st.main with
    | atSend i =>
      rw [hm] at h hmain
      simp only at h hmain
      cases hx : st.tasks[j]? with
      | some tp =>
        rw [hx] at h
        cases tp with
        | waiting =>
          simp only [Option.some.injEq] at h
          subst h
          refine ⟨⟨?_, ?_, hslot, ?_, by simp⟩, rfl⟩
          · simp only [List.length_set]
            omega
          · have := countP_set_eq unfinishedTask st.tasks j .received .waiting hx
            simp only [unfinishedTask] at this
            simp only [unfinishedTask]
            omega
          · intro t ht
            rcases List.mem_or_eq_of_mem_set ht with h1 | h1
            · exact htasks t h1
            · subst h1; trivial
        | received => simp at h
        | running r => simp at h
        | finished r => simp at h
      | none => rw [hx] at h; simp at h
    | atWrite i => rw [hm] at h; simp at h
    | atSpawn i => rw [hm] at h; simp at h
    | atJoin => rw [hm] at h; simp at h
    | returned => rw [hm] at h; simp at h
  | tRead j =>
    simp only [dstep] at h
    cases hx : st.tasks[j]? with
    | some tp =>
      rw [hx] at h
      cases tp with
      | received =>
        cases hs : st.slot with
        | some r =>
          rw [hs] at h
          simp only [Option.some.injEq] at h
          subst h
          have hr : r ∈ st.repos := hslot r hs
          refine ⟨⟨?_, ?_, ?_, ?_, hret⟩, rfl⟩
          · revert hmain
            cases st.main <;> intro hmain <;> simpa [List.length_set] using hmain
          · have := countP_set_eq unfinishedTask st.tasks j (.running r) .received hx
            simp only [unfinishedTask] at this
            simp only [unfinishedTask]
            omega
          · intro r2 hr2
            simp only [Option.some.injEq] at hr2
            exact hr2 ▸ hr
          · intro t ht
            rcases List.mem_or_eq_of_mem_set ht with h1 | h1
            · exact htasks t h1
            · subst h1; exact hr
        | none => rw [hs] at h; simp at h
      | waiting => cases hs : st.slot <;> rw [hs] at h <;> simp at h
      | running r => cases hs : st.slot <;> rw [hs] at h <;> simp at h
      | finished r => cases hs : st.slot <;> rw [hs] at h <;> simp at h
    | none => cases hs : st.slot <;> rw [hx, hs] at h <;> simp at h
  | tFinish j =>
    simp only [dstep] at h
    cases hx : st.tasks[j]? with
    | some tp =>
      rw [hx] at h
      cases tp with
      | running r =>
        simp only [Option.some.injEq] at h
        subst h
        have hmem : TaskPhase.running r ∈ st.tasks := List.getElem?_mem hx
        have hpos : 0 < st.tasks.countP unfinishedTask :=
          List.countP_pos_iff.mpr ⟨_, hmem, rfl⟩
        have hcnt := countP_set_eq unfinishedTask st.tasks j (.finished r) (.running r) hx
        simp [unfinishedTask] at hcnt
        have hr : r ∈ st.repos := htasks _ hmem
        refine ⟨⟨?_, ?_, hslot, ?_, ?_⟩, rfl⟩
        · revert hmain
          cases st.main <;> intro hmain <;> simpa [List.length_set] using hmain
        · simp only
          omega
        · intro t ht
          rcases List.mem_or_eq_of_mem_set ht with h1 | h1
          · exact htasks t h1
          · subst h1; exact hr
        · intro hretd
          have := hret hretd
          omega
      | waiting => simp at h
      | received => simp at h
      | finished r => simp at h
    | none => rw [hx] at h; simp at h
  | mJoin =>
    simp only [dstep] at h
    cases hm : st.main with
    | atJoin =>
      rw [hm] at h hmain
      simp only at h hmain
      by_cases hz : st.wg = 0
      · rw [if_pos hz] at h
        simp only [Option.some.injEq] at h
        subst h
        exact ⟨⟨hmain, hwg, hslot, htasks, fun _ => hz⟩, rfl⟩
      · rw [if_neg hz] at h; simp at h
    | atWrite i => rw [hm] at h; simp at h
    | atSpawn i => rw [hm] at h; simp at h
    | atSend i => rw [hm] at h; simp at h
    | returned => rw [hm] at h; simp at h

theorem dinit_dinv (repos : List Repository) : DInv (dinit repos) := by
  refine ⟨⟨rfl, Nat.zero_le _⟩, rfl, ?_, ?_, ?_⟩
  · intro r hr
    simp [dinit] at hr
  · intro t ht
    simp [dinit] at ht
  · intro hr
    simp [dinit] at hr

theorem dexec_dinv (labs : List Lab) (st st' : DState) (hinv : DInv st)
    (h : dexec labs st = some st') : DInv st' ∧ st'.repos = st.repos := by
  induction labs generalizing st with
  | nil =>
    simp only [dexec, Option.some.injEq] at h
    subst h
    exact ⟨hinv, rfl⟩
  | cons lab rest ih =>
    simp only [dexec] at h
    cases hs : dstep st lab with
    | none => rw [hs] at h; simp at h
    | some st2 =>
      rw [hs] at h
      obtain ⟨h1, h2⟩ := dstep_dinv hinv hs
      obtain ⟨h3, h4⟩ := ih st2 h1 h
      exact ⟨h3, h4.trans h2⟩

/-- Counterexample to claim C2: over the list `[repoA, repoB]` there is a
schedule in which the run completes normally yet the task spawned at
iteration 0 (whose intended repository is `repoA`) reads the shared loop
slot only after the main loop has overwritten it, so both tasks process
`repoB` and `repoA` is never processed. -/
theorem c2_task_observes_other_repo :
    repoA ≠ repoB ∧
    (dexec racySchedule (dinit [repoA, repoB])).map
        (fun st => (st.main, st.tasks)) =
      some (.returned, [.finished repoB, .finished repoB]) := by
  decide

/-- Claim C2 as amended: under every schedule, the pipeline spawns
exactly one task per repository and returns only after every spawned task
has finished, and every value a task processed is some element of the
repository list — but not necessarily the repository current at its spawn
(see the counterexample). -/
theorem c2_dispatch_amended (repos : List Repository) (labs : List Lab)
    (st : DState) (h : dexec labs (dinit repos) = some st)
    (hret : st.main = .returned) :
    st.tasks.length = repos.length ∧
    ∀ t ∈ st.tasks, ∃ r, t = .finished r ∧ r ∈ repos := by
  obtain ⟨hinv, hrepos⟩ := dexec_dinv labs (dinit repos) st (dinit_dinv repos) h
  obtain ⟨hmain, hwg, hslot, htasks, hre⟩ := hinv
  rw [hret] at hmain
  simp only [dinit] at hrepos
  refine ⟨hrepos ▸ hmain, ?_⟩
  intro t ht
  have hz : st.tasks.countP unfinishedTask = 0 := by
    rw [← hwg]
    exact hre hret
  have hfin := List.countP_eq_zero.mp hz t ht
  cases t with
  | finished r =>
    have := htasks _ ht
    exact ⟨r, rfl, hrepos ▸ this⟩
  | waiting => simp [unfinishedTask] at hfin
  | received => simp [unfinishedTask] at hfin
  | running r => simp [unfinishedTask] at hfin

/-- Evaluation of the amended C2 theorem on a complete one-repository
schedule. -/
theorem c2_dispatch_amended_witness :
    (⟨[repoA], .returned, some repoA, [.finished repoA], 0⟩ : DState).tasks.length =
      [repoA].length ∧
    ∀ t ∈ (⟨[repoA], .returned, some repoA, [.finished repoA], 0⟩ : DState).tasks,
      ∃ r, t = .finished r ∧ r ∈ [repoA] :=
  c2_dispatch_amended [repoA] cleanSchedule
    ⟨[repoA], .returned, some repoA, [.finished repoA], 0⟩ (by decide) rfl

/-! ### URL normalizer: runs and labels -/

theorem runLen_le_length (p : Char → Bool) (cs : List Char) :
    runLen p cs ≤ cs.length := by
  induction cs with
  | nil => simp [runLen]
  | cons c cs ih =>
    simp only [runLen, List.length_cons]
    split <;> omega

theorem runLen_all_le (p : Char → Bool) (w rest : List Char)
    (hw : w.all p = true) : w.length ≤ runLen p (w ++ rest) := by
  induction w with
  | nil => simp
  | cons c w ih =>
    simp only [List.all_cons, Bool.and_eq_true] at hw
    have := ih hw.2
    simp only [List.cons_append, runLen, hw.1, if_true, List.length_cons,
      List.append_eq]
    omega

theorem runLen_le_stop (p : Char → Bool) (w : List Char) (c : Char)
    (rest : List Char) (hc : p c = false) :
    runLen p (w ++ c :: rest) ≤ w.length := by
  induction w with
  | nil => simp [runLen, hc]
  | cons a w ih =>
    simp only [List.cons_append, runLen, List.length_cons, List.append_eq]
    split <;> omega

theorem runLen_eq_word (p : Char → Bool) (w : List Char) (c : Char)
    (rest : List Char) (hw : w.all p = true) (hc : p c = false) :
    runLen p (w ++ c :: rest) = w.length :=
  le_antisymm (runLen_le_stop p w c rest hc) (runLen_all_le p w (c :: rest) hw)

theorem all_take_runLen (p : Char → Bool) (cs : List Char) :
    (cs.take (runLen p cs)).all p = true := by
  induction cs with
  | nil => simp
  | cons c cs ih =>
    simp only [runLen]
    by_cases hp : p c = true
    · simp [hp, List.take_succ_cons, ih]
    · simp only [Bool.not_eq_true] at hp
      simp [hp]

theorem getElem?_lt_runLen (p : Char → Bool) (cs : List Char) (i : Nat)
    (hi : i < runLen p cs) : ∃ c, cs[i]? = some c ∧ p c = true := by
  induction cs generalizing i with
  | nil => simp [runLen] at hi
  | cons c cs ih =>
    simp only [runLen] at hi
    by_cases hp : p c = true
    · rw [if_pos hp] at hi
      cases i with
      | zero => exact ⟨c, by simp, hp⟩
      | succ i =>
        obtain ⟨d, hd, hpd⟩ := ih i (by omega)
        exact ⟨d, by simpa using hd, hpd⟩
    · rw [if_neg hp] at hi
      omega

theorem labelSplit_of_shape (w : List Char) (tail : List Char) (hw : w ≠ [])
    (hall : w.all isWordChar = true) :
    labelSplit (w ++ '.' :: tail) = some (w.length + 1, tail) := by
  have hdot : isWordChar '.' = false := by decide
  have hrun : runLen isWordChar (w ++ '.' :: tail) = w.length :=
    runLen_eq_word _ _ _ _ hall hdot
  have hne : w.length ≠ 0 := by
    cases w with
    | nil => exact absurd rfl hw
    | cons a w => simp
  have hdrop : (w ++ '.' :: tail).drop w.length = '.' :: tail :=
    List.drop_left w ('.' :: tail)
  simp [labelSplit, hrun, hne, hdrop]

theorem labelSplit_inv (cs : List Char) (k : Nat) (rest : List Char)
    (h : labelSplit cs = some (k, rest)) :
    runLen isWordChar cs = k - 1 ∧ 1 ≤ k - 1 ∧ cs[k - 1]? = some '.' ∧
    rest = cs.drop k ∧ k ≤ cs.length := by
  simp only [labelSplit] at h
  split at h
  · simp at h
  · rename_i hn
    split at h
    · rename_i c rest2 heq
      split at h
      · rename_i hc
        subst hc
        simp only [Option.some.injEq, Prod.mk.injEq] at h
        obtain ⟨hk, hrest⟩ := h
        subst hk
        subst hrest
        have hget : cs[runLen isWordChar cs]? = some '.' := by
          have h0 : (cs.drop (runLen isWordChar cs))[0]? = some '.' := by
            rw [heq]
            simp
          rwa [List.getElem?_drop, Nat.add_zero] at h0
        have hlt : runLen isWordChar cs < cs.length :=
          (List.getElem?_eq_some.mp hget).fst
        refine ⟨by omega, by omega, ?_, ?_, by omega⟩
        · simpa using hget
        · have : (cs.drop (runLen isWordChar cs)).drop 1 = rest2 := by
            rw [heq]
            rfl
          rw [List.drop_drop] at this
          simpa [Nat.add_comm] using this.symm
      · simp at h
    · simp at h

/-! ### URL normalizer: soundness of the host matcher -/

theorem isLower_imp_isWord (c : Char) (h : isLowerAscii c = true) :
    isWordChar c = true := by
  simp only [isLowerAscii, isWordChar, Bool.and_eq_true, Bool.or_eq_true,
    decide_eq_true_eq, beq_iff_eq] at *
  omega

theorem all_lower_word (w : List Char) (h : w.all isLowerAscii = true) :
    w.all isWordChar = true := by
  rw [List.all_eq_true] at *
  exact fun c hc => isLower_imp_isWord c (h c hc)

theorem hostMatchAux_succ_eq (fuel : Nat) (cs : List Char) (k : Nat)
    (rest : List Char) (hls : labelSplit cs = some (k, rest)) :
    hostMatchAux (fuel + 1) cs =
      match hostMatchAux fuel rest with
      | some m => some (k + m)
      | none =>
        if 2 ≤ runLen isLowerAscii rest then
          some (k + min 5 (runLen isLowerAscii rest))
        else none := by
  simp [hostMatchAux, hls]

theorem hostMatchAux_ge (fuel : Nat) : ∀ (cs : List Char) (m : Nat),
    hostMatchAux fuel cs = some m →
    ∃ k rest, labelSplit cs = some (k, rest) ∧ 2 ≤ k ∧ k + 2 ≤ m := by
  induction fuel with
  | zero =>
    intro cs m h
    simp [hostMatchAux] at h
  | succ fuel ih =>
    intro cs m h
    simp only [hostMatchAux] at h
    split at h
    · simp at h
    · rename_i k rest hls
      obtain ⟨_, hk1, _, _, _⟩ := labelSplit_inv cs k rest hls
      refine ⟨k, rest, hls, by omega, ?_⟩
      split at h
      · rename_i m2 hrec
        obtain ⟨k2, rest2, _, hk2, hge⟩ := ih rest m2 hrec
        simp only [Option.some.injEq] at h
        omega
      · split at h
        · rename_i hl
          simp only [Option.some.injEq] at h
          omega
        · simp at h

theorem hostMatchAux_sound (fuel : Nat) : ∀ (cs : List Char) (m : Nat),
    hostMatchAux fuel cs = some m →
    ∃ labs tld, labs ++ tld = cs.take m ∧ LabelsM labs ∧ TldOk tld ∧
      m ≤ cs.length := by
  induction fuel with
  | zero =>
    intro cs m h
    simp [hostMatchAux] at h
  | succ fuel ih =>
    intro cs m h
    simp only [hostMatchAux] at h
    split at h
    · simp at h
    · rename_i k rest hls
      obtain ⟨hrun, hk1, hdot, hrest, hklen⟩ := labelSplit_inv cs k rest hls
      have hwall : (cs.take (k - 1)).all isWordChar = true := by
        rw [← hrun]
        exact all_take_runLen _ _
      have hwlen : (cs.take (k - 1)).length = k - 1 := by
        rw [List.length_take]
        omega
      have hwne : cs.take (k - 1) ≠ [] := by
        intro hnil
        rw [hnil] at hwlen
        simp at hwlen
        omega
      have htakek : cs.take k = cs.take (k - 1) ++ ['.'] := by
        rw [show k = (k - 1) + 1 by omega, List.take_succ]
        rw [show k - 1 + 1 - 1 = k - 1 by omega, hdot]
        rfl
      have hrestlen : rest.length = cs.length - k := by
        rw [hrest]
        simp
      split at h
      · rename_i m2 hrec
        simp only [Option.some.injEq] at h
        subst h
        obtain ⟨labs2, tld, hsplit, hlabs2, htld, hm2len⟩ := ih rest m2 hrec
        refine ⟨cs.take (k - 1) ++ '.' :: labs2, tld, ?_, ?_, htld, by omega⟩
        · rw [List.take_add, htakek, ← hrest, ← hsplit]
          simp
        · exact LabelsM.cons _ _ hwne hwall hlabs2
      · rename_i hrecnone
        split at h
        · rename_i hl
          simp only [Option.some.injEq] at h
          subst h
          refine ⟨cs.take (k - 1) ++ ['.'],
            rest.take (min 5 (runLen isLowerAscii rest)), ?_,
            LabelsM.one _ hwne hwall, ?_, ?_⟩
          · rw [List.take_add, htakek, ← hrest]
          · have hminl : min 5 (runLen isLowerAscii rest) ≤ runLen isLowerAscii rest :=
              min_le_right _ _
            have hrl : runLen isLowerAscii rest ≤ rest.length := runLen_le_length _ _
            refine ⟨?_, ?_, ?_⟩
            · rw [List.length_take]
              omega
            · rw [List.length_take]
              omega
            · rw [List.all_eq_true]
              intro c hc
              have hc2 : c ∈ rest.take (runLen isLowerAscii rest) := by
                have heq : rest.take (min 5 (runLen isLowerAscii rest)) =
                    (rest.take (runLen isLowerAscii rest)).take (min 5 (runLen isLowerAscii rest)) := by
                  rw [List.take_take]
                  congr 1
                  omega
                rw [heq] at hc
                exact List.mem_of_mem_take hc
              have := all_take_runLen isLowerAscii rest
              rw [List.all_eq_true] at this
              exact this c hc2
          · have hrl : runLen isLowerAscii rest ≤ rest.length := runLen_le_length _ _
            omega
        · simp at h

/-! ### URL normalizer: maximality of the greedy matcher -/

theorem PathM_all_seg (p : List Char) (h : PathM p) : p.all isSegChar = true := by
  induction h with
  | nil => simp
  | cons seg rest hne hall hp ih =>
    have hslash : isSegChar '/' = true := by decide
    simp [List.all_cons, List.all_append, hall, ih, hslash]

theorem pathLen_max (path tail2 : List Char) (h : PathM path) :
    path.length ≤ pathLen (path ++ tail2) := by
  cases h with
  | nil => simp
  | cons seg rest hne hall hp =>
    have hallp : ('/' :: seg ++ rest).all isSegChar = true :=
      PathM_all_seg _ (PathM.cons seg rest hne hall hp)
    have hslen : 1 ≤ seg.length := by
      cases seg with
      | nil => exact absurd rfl hne
      | cons a s => simp
    have hrun := runLen_all_le isSegChar ('/' :: seg ++ rest) tail2 hallp
    rw [List.cons_append, List.cons_append] at hrun ⊢
    simp only [pathLen, List.length_cons, List.length_append, if_true] at hrun ⊢
    split <;> omega

theorem pathLen_sound (cs : List Char) :
    pathLen cs = 0 ∨ (PathM (cs.take (pathLen cs)) ∧ pathLen cs ≤ cs.length) := by
  cases hcs : cs with
  | nil => left; rfl
  | cons c cs2 =>
    by_cases hc : c = '/'
    · subst hc
      by_cases hr : 2 ≤ runLen isSegChar ('/' :: cs2)
      · right
        have hplen : pathLen ('/' :: cs2) = runLen isSegChar ('/' :: cs2) := by
          simp [pathLen, hr]
        set r := runLen isSegChar ('/' :: cs2) with hrdef
        have hrle : r ≤ cs2.length + 1 := by
          have := runLen_le_length isSegChar ('/' :: cs2)
          simpa using this
        refine ⟨?_, by rw [hplen]; simpa using hrle⟩
        rw [hplen]
        have hall := all_take_runLen isSegChar ('/' :: cs2)
        rw [← hrdef] at hall
        have htk : ('/' :: cs2).take r = '/' :: cs2.take (r - 1) := by
          conv_lhs => rw [show r = (r - 1) + 1 by omega]
          rw [List.take_succ_cons]
        rw [htk] at hall ⊢
        simp only [List.all_cons, Bool.and_eq_true] at hall
        have hne2 : cs2.take (r - 1) ≠ [] := by
          intro hn
          have hlen2 := congrArg List.length hn
          rw [List.length_take] at hlen2
          simp only [List.length_nil] at hlen2
          omega
        have hP : PathM ('/' :: cs2.take (r - 1) ++ []) :=
          PathM.cons _ [] hne2 hall.2 PathM.nil
        simpa using hP
      · left
        simp [pathLen, hr]
    · left
      simp [pathLen, hc]

theorem hostMatchAux_max (fuel : Nat) : ∀ (cs labs tld path tail2 : List Char),
    labs ++ (tld ++ (path ++ tail2)) = cs →
    LabelsM labs → TldOk tld → PathM path → cs.length ≤ fuel →
    ∃ m, hostMatchAux fuel cs = some m ∧
      labs.length + tld.length + path.length ≤ m + pathLen (cs.drop m) := by
  induction fuel with
  | zero =>
    intro cs labs tld path tail2 hcat hlabs htld hpath hlen
    have hnil : cs = [] := List.length_eq_zero.mp (by omega)
    subst hnil
    obtain ⟨h1, _⟩ := List.append_eq_nil.mp hcat
    cases hlabs <;> simp_all
  | succ fuel ih =>
    intro cs labs tld path tail2 hcat hlabs htld hpath hlen
    have hpathfact : ∀ (seg rest3 : List Char), path = '/' :: seg ++ rest3 →
        ∀ X : List Char, (tld ++ (path ++ tail2) = X) → X[tld.length]? = some '/' := by
      intro seg rest3 hshape X hX
      subst hX
      rw [List.getElem?_append_right (le_refl tld.length)]
      simp [hshape]
    cases hlabs with
    | one w hwne hwall =>
      have hcs : cs = w ++ '.' :: (tld ++ (path ++ tail2)) := by
        rw [← hcat]
        simp
      have hls : labelSplit cs = some (w.length + 1, tld ++ (path ++ tail2)) := by
        rw [hcs]
        exact labelSplit_of_shape w _ hwne hwall
      have hdropcs : ∀ n, cs.drop (w.length + 1 + n) =
          (tld ++ (path ++ tail2)).drop n := by
        intro n
        rw [hcs, show w ++ '.' :: (tld ++ (path ++ tail2)) =
            (w ++ ['.']) ++ (tld ++ (path ++ tail2)) by simp]
        rw [show w.length + 1 + n = (w ++ ['.']).length + n by simp]
        rw [← List.drop_drop, List.drop_left]
      rw [hostMatchAux_succ_eq fuel cs _ _ hls]
      cases hrec : hostMatchAux fuel (tld ++ (path ++ tail2)) with
      | some m2 =>
        obtain ⟨k2, rest2, hls2, hk2, hk2m⟩ := hostMatchAux_ge fuel _ m2 hrec
        obtain ⟨hrun2, hk21, hdot2, _, _⟩ := labelSplit_inv _ k2 rest2 hls2
        have htw : tld.all isWordChar = true := all_lower_word _ htld.2.2
        have htle : tld.length ≤ k2 - 1 := by
          rw [← hrun2]
          exact runLen_all_le isWordChar tld (path ++ tail2) htw
        have hpnil : path = [] := by
          by_contra hne
          cases hpath with
          | nil => exact hne rfl
          | cons seg rest3 hsne hsall hp3 =>
            have hslash := hpathfact seg rest3 rfl _ rfl
            rcases Nat.lt_or_ge tld.length (k2 - 1) with hlt | hge
            · obtain ⟨c, hc, hcw⟩ := getElem?_lt_runLen isWordChar _ tld.length
                (by rw [hrun2]; exact hlt)
              rw [hslash] at hc
              simp only [Option.some.injEq] at hc
              subst hc
              exact absurd hcw (by decide)
            · have hteq : tld.length = k2 - 1 := by omega
              rw [hteq] at hslash
              rw [hdot2] at hslash
              simp at hslash
        subst hpnil
        refine ⟨w.length + 1 + m2, rfl, ?_⟩
        simp only [List.length_append, List.length_cons, List.length_nil]
        omega
      | none =>
        have hlt : tld.length ≤ runLen isLowerAscii (tld ++ (path ++ tail2)) :=
          runLen_all_le isLowerAscii tld (path ++ tail2) htld.2.2
        have h2l : 2 ≤ runLen isLowerAscii (tld ++ (path ++ tail2)) :=
          le_trans htld.1 hlt
        rw [if_pos h2l]
        refine ⟨w.length + 1 + min 5 (runLen isLowerAscii (tld ++ (path ++ tail2))),
          rfl, ?_⟩
        rw [hdropcs]
        rcases Nat.lt_or_ge tld.length
            (min 5 (runLen isLowerAscii (tld ++ (path ++ tail2)))) with hlt2 | hge2
        · have hplt : tld.length < runLen isLowerAscii (tld ++ (path ++ tail2)) := by
            omega
          have hpnil : path = [] := by
            by_contra hne
            cases hpath with
            | nil => exact hne rfl
            | cons seg rest3 hsne hsall hp3 =>
              have hslash := hpathfact seg rest3 rfl _ rfl
              obtain ⟨c, hc, hcl⟩ := getElem?_lt_runLen isLowerAscii _ tld.length hplt
              rw [hslash] at hc
              simp only [Option.some.injEq] at hc
              subst hc
              exact absurd hcl (by decide)
          subst hpnil
          simp only [List.length_append, List.length_cons, List.length_nil]
          omega
        · have htmin : tld.length =
              min 5 (runLen isLowerAscii (tld ++ (path ++ tail2))) := by
            have h5 : tld.length ≤ 5 := htld.2.1
            omega
          have hdrop_rest : (tld ++ (path ++ tail2)).drop tld.length =
              path ++ tail2 := List.drop_left tld (path ++ tail2)
          have hpl : path.length ≤
              pathLen ((tld ++ (path ++ tail2)).drop tld.length) := by
            rw [hdrop_rest]
            exact pathLen_max path tail2 hpath
          rw [← htmin]
          simp only [List.length_append, List.length_cons, List.length_nil]
          omega
    | cons w rest1 hwne hwall hlabs1 =>
      have hcs : cs = w ++ '.' :: (rest1 ++ (tld ++ (path ++ tail2))) := by
        rw [← hcat]
        simp
      have hls : labelSplit cs =
          some (w.length + 1, rest1 ++ (tld ++ (path ++ tail2))) := by
        rw [hcs]
        exact labelSplit_of_shape w _ hwne hwall
      have hwpos : 1 ≤ w.length := by
        cases w with
        | nil => exact absurd rfl hwne
        | cons a s => simp
      have hcslen : cs.length =
          w.length + 1 + (rest1 ++ (tld ++ (path ++ tail2))).length := by
        rw [hcs]
        simp only [List.length_append, List.length_cons]
        omega
      obtain ⟨m2, hm2, hbound⟩ := ih (rest1 ++ (tld ++ (path ++ tail2))) rest1 tld
        path tail2 rfl hlabs1 htld hpath (by omega)
      rw [hostMatchAux_succ_eq fuel cs _ _ hls, hm2]
      refine ⟨w.length + 1 + m2, rfl, ?_⟩
      have hdropcs : cs.drop (w.length + 1 + m2) =
          (rest1 ++ (tld ++ (path ++ tail2))).drop m2 := by
        rw [hcs, show w ++ '.' :: (rest1 ++ (tld ++ (path ++ tail2))) =
            (w ++ ['.']) ++ (rest1 ++ (tld ++ (path ++ tail2))) by simp]
        rw [show w.length + 1 + m2 = (w ++ ['.']).length + m2 by simp]
        rw [← List.drop_drop, List.drop_left]
      rw [hdropcs]
      simp only [List.length_append, List.length_cons] at hbound ⊢
      omega

/-! ### URL normalizer: scheme determinism and the top-level theorems -/

theorem schemeLen_of_shape (sch rest : List Char)
    (hs : sch = "https://".toList ∨ sch = "http://".toList) :
    schemeLen (sch ++ rest) = some sch.length := by
  rcases hs with h | h <;> subst h
  · have htake : ("https://".toList ++ rest).take 8 = "https://".toList := by
      rw [show (8 : Nat) = ("https://".toList).length from rfl, List.take_left]
    simp [schemeLen, htake]
  · have htake : ("http://".toList ++ rest).take 7 = "http://".toList := by
      rw [show (7 : Nat) = ("http://".toList).length from rfl, List.take_left]
    have hfail : ("http://".toList ++ rest).take 8 ≠ "https://".toList := by
      intro heq
      have h4 := congrArg (fun l => l[4]?) heq
      rw [show (8 : Nat) = ("http://".toList).length + 1 from rfl,
        List.take_append] at h4
      simp only at h4
      rw [List.getElem?_append_left (by decide : (4 : Nat) < ("http://".toList).length)]
        at h4
      exact absurd h4 (by decide)
    simp [schemeLen, hfail, htake]

theorem schemeLen_sound (cs : List Char) (q : Nat) (h : schemeLen cs = some q) :
    (q = 8 ∧ cs.take 8 = "https://".toList) ∨
    (q = 7 ∧ cs.take 7 = "http://".toList) := by
  simp only [schemeLen] at h
  split at h
  · rename_i h8
    left
    simp only [Option.some.injEq] at h
    exact ⟨h.symm, h8⟩
  · split at h
    · rename_i h7
      right
      simp only [Option.some.injEq] at h
      exact ⟨h.symm, h7⟩
    · simp at h

theorem extractCore_sound (cs : List Char) :
    extractCore cs = 0 ∨
    (UrlM (cs.take (extractCore cs)) ∧ extractCore cs ≤ cs.length) := by
  cases hq : schemeLen cs with
  | none =>
    left
    simp [extractCore, hq]
  | some q =>
    cases hh : hostMatch (cs.drop q) with
    | none =>
      left
      simp [extractCore, hq, hh]
    | some hm =>
      right
      have hcore : extractCore cs = q + hm + pathLen (cs.drop (q + hm)) := by
        simp [extractCore, hq, hh]
      have hsch := schemeLen_sound cs q hq
      have hsch2 : (cs.take q = "https://".toList ∨ cs.take q = "http://".toList) ∧
          (cs.take q).length = q ∧ q ≤ cs.length := by
        rcases hsch with ⟨hq8, ht⟩ | ⟨hq7, ht⟩
        · subst hq8
          have hl := congrArg List.length ht
          rw [List.length_take] at hl
          have h8 : ("https://".toList).length = 8 := rfl
          rw [h8] at hl
          exact ⟨Or.inl ht, by rw [ht, h8], by omega⟩
        · subst hq7
          have hl := congrArg List.length ht
          rw [List.length_take] at hl
          have h7 : ("http://".toList).length = 7 := rfl
          rw [h7] at hl
          exact ⟨Or.inr ht, by rw [ht, h7], by omega⟩
      obtain ⟨hschor, hqtake, hqle⟩ := hsch2
      obtain ⟨labs, tld, hsplit, hlabs, htld, hmlen⟩ :=
        hostMatchAux_sound (cs.drop q).length (cs.drop q) hm hh
      have hmlen2 : hm ≤ cs.length - q := by
        rw [List.length_drop] at hmlen
        exact hmlen
      have hdd : cs.drop (q + hm) = (cs.drop q).drop hm := by
        rw [List.drop_drop]
      rcases pathLen_sound (cs.drop (q + hm)) with hp0 | ⟨hpm, hple⟩
      · constructor
        · rw [hcore, hp0, Nat.add_zero, List.take_add]
          refine ⟨cs.take q, labs, tld, [], ?_, hschor, hlabs, htld, PathM.nil⟩
          rw [← hsplit]
          simp
        · rw [hcore, hp0]
          omega
      · rw [List.length_drop] at hple
        constructor
        · rw [hcore, List.take_add, List.take_add]
          refine ⟨cs.take q, labs, tld,
            (cs.drop (q + hm)).take (pathLen (cs.drop (q + hm))), ?_, hschor,
            hlabs, htld, hpm⟩
          rw [← hsplit]
          simp
        · rw [hcore]
          omega

theorem extractCore_max (cs p tail2 : List Char) (hp : p ++ tail2 = cs)
    (hu : UrlM p) : p.length ≤ extractCore cs := by
  obtain ⟨sch, labs, tld, path, hpcat, hsch, hlabs, htld, hpath⟩ := hu
  have hcs : sch ++ (labs ++ (tld ++ (path ++ tail2))) = cs := by
    rw [← hp, hpcat]
    simp [List.append_assoc]
  have hq : schemeLen cs = some sch.length := by
    rw [← hcs]
    exact schemeLen_of_shape sch _ hsch
  have hdrop : cs.drop sch.length = labs ++ (tld ++ (path ++ tail2)) := by
    rw [← hcs, List.drop_left]
  obtain ⟨m, hm, hbound⟩ := hostMatchAux_max (cs.drop sch.length).length
    (cs.drop sch.length) labs tld path tail2 hdrop.symm hlabs htld hpath
    (le_refl _)
  have hm2 : hostMatch (cs.drop sch.length) = some m := hm
  have hcore : extractCore cs =
      sch.length + m + pathLen (cs.drop (sch.length + m)) := by
    simp [extractCore, hq, hm2]
  have hdd : cs.drop (sch.length + m) = (cs.drop sch.length).drop m := by
    rw [List.drop_drop]
  rw [hcore, hpcat, hdd]
  simp only [List.length_append]
  omega

/-- Claim C8: the normalizer maps the spec's two test inputs to the
spec's two outputs, its result is always a prefix of the input that (when
nonempty) lies in the spec grammar `scheme://host(/path-segment)*`, and
no longer prefix of the input lies in that grammar — i.e. `_ExtractUrl`
returns the longest valid prefix, and the empty string when no valid
prefix exists. -/
theorem c8_normalizer_longest_match (s : String) :
    _ExtractUrl "https://api.example.com/orgs/x/repos\x7b/other\x7d" =
      "https://api.example.com/orgs/x/repos" ∧
    _ExtractUrl "not a url" = "" ∧
    (_ExtractUrl s).toList ++ s.toList.drop (extractCore s.toList) = s.toList ∧
    (_ExtractUrl s = "" ∨ UrlM (_ExtractUrl s).toList) ∧
    (∀ p tail2 : List Char, p ++ tail2 = s.toList → UrlM p →
      p.length ≤ (_ExtractUrl s).toList.length) := by
  refine ⟨by decide, by decide, ?_, ?_, ?_⟩
  · exact List.take_append_drop (extractCore s.toList) s.toList
  · rcases extractCore_sound s.toList with h0 | ⟨hu, hle⟩
    · left
      unfold _ExtractUrl
      rw [h0, List.take_zero]
    · right
      exact hu
  · intro p tail2 hcat hu
    have hmax := extractCore_max s.toList p tail2 hcat hu
    have hlen : (_ExtractUrl s).toList.length =
        min (extractCore s.toList) s.toList.length := by
      simp [_ExtractUrl, List.length_take]
    have hple : p.length ≤ s.toList.length := by
      have := congrArg List.length hcat
      simp only [List.length_append] at this
      omega
    omega

/-- Evaluation of the C8 theorem: no prefix of
`"https://ab.cd/x"` in the grammar is longer than what `_ExtractUrl`
keeps, checked at the grammar prefix `"https://ab.cd"`. -/
theorem c8_normalizer_longest_match_witness :
    ("https://ab.cd".toList : List Char).length ≤
      (_ExtractUrl "https://ab.cd/x").toList.length :=
  (c8_normalizer_longest_match "https://ab.cd/x").2.2.2.2
    "https://ab.cd".toList "/x".toList (by decide)
    ⟨"https://".toList, ['a', 'b', '.'], ['c', 'd'], [], by decide, Or.inl rfl,
     LabelsM.one ['a', 'b'] (by decide) (by decide),
     ⟨by decide, by decide, by decide⟩, PathM.nil⟩

end GhRecon
